import Mathlib

/-!
# Verification of the `edit` package (buffered position-based editing)

A shallow embedding of `edit.go`.  Go strings and byte slices are both
immutable byte sequences indexed by byte offsets (`len(s) == len([]byte(s))`
and slicing is byte-based in both), so content and replacement text are
modelled uniformly as `List Nat` (one `Nat` per byte).
-/

/-- A Go byte sequence (`[]byte` or `string` contents). -/
abbrev ByteSeq := List Nat

/-- Go slice expression `c[i:j]` (valid when `i ≤ j ≤ c.length`;
the callers below check bounds before slicing, as the Go runtime does). -/
def goSlice (c : ByteSeq) (i j : Nat) : ByteSeq := (c.take j).drop i

/-- An edit records a single text modification: change the bytes in
`[start, end)` to `new`.  (`end` is a Lean keyword, hence `end_`.)
Offsets are `Nat`s: the `Insert`/`Delete`/`Replace` range checks reject
negative offsets before a record is ever created. -/
structure edit where
  start : Nat
  end_ : Nat
  new : ByteSeq
deriving DecidableEq, Repr

/-- `edits.Less` from the source: order by start offset, breaking ties by
end offset. -/
def edits.Less (a b : edit) : Bool :=
  if a.start ≠ b.start then a.start < b.start else a.end_ < b.end_

/-- The (non-strict, total) relation induced by the stable sort:
`a` may come before `b` exactly when `b` is not strictly less than `a`. -/
def sortRel (a b : edit) : Prop := edits.Less b a = false

instance : DecidableRel sortRel := fun a b => inferInstanceAs (Decidable (_ = false))

/-- `sort.Stable(b.q)`: a stable sort by `edits.Less`.  Stable sorting has a
unique result, here given by insertion sort with the associated total
preorder. -/
def sortEdits (q : List edit) : List edit := q.insertionSort sortRel

/-- A Go panic raised by the package (or by the runtime on a bad slice /
index expression inside it). -/
inductive GoPanic where
  /-- `panic("invalid edit position")` in `Insert`/`Delete`/`Replace`. -/
  | invalidEditPos
  /-- `panic(fmt.Sprintf("overlapping edits: ..."))`, reporting the previous
  record `e0` and the current record `e`. -/
  | overlappingEdits (e0 e : edit)
  /-- runtime panic: slice bounds out of range. -/
  | sliceBounds
  /-- runtime panic: index out of range (`b.q[i-1]` at `i = 0`). -/
  | indexBounds
deriving DecidableEq, Repr

/-- A Buffer is a queue of edits to apply to a given byte slice.
`old = none` models a nil `[]byte`; the `str` field is used only when
`old` is nil, exactly as in the source. -/
structure Buffer where
  old : Option ByteSeq
  str : ByteSeq
  q : List edit
deriving DecidableEq, Repr

/-- `NewBuffer` returns a new buffer to accumulate changes to an initial
data slice (`none` = nil slice). -/
def NewBuffer (old : Option ByteSeq) : Buffer := ⟨old, [], []⟩

/-- `NewBufferString` returns a new buffer to accumulate changes to an
initial string. -/
def NewBufferString (old : ByteSeq) : Buffer := ⟨none, old, []⟩

/-- `contentsLen` returns the length of the original data:
`len(b.old)` if `b.old != nil`, else `len(b.str)`. -/
def Buffer.contentsLen (b : Buffer) : Nat :=
  match b.old with
  | some o => o.length
  | none => b.str.length

/-- `Insert` inserts the new string at `old[pos:pos]`.  Panics (modelled as
`Except.error`) when `pos < 0 || pos > b.contentsLen()`. -/
def Buffer.Insert (b : Buffer) (pos : Int) (new : ByteSeq) : Except GoPanic Buffer :=
  if pos < 0 ∨ pos > (b.contentsLen : Int) then .error .invalidEditPos
  else .ok { b with q := b.q ++ [⟨pos.toNat, pos.toNat, new⟩] }

/-- `Delete` deletes the text `old[start:end]`.  Panics when
`end < start || start < 0 || end > b.contentsLen()`. -/
def Buffer.Delete (b : Buffer) (start end_ : Int) : Except GoPanic Buffer :=
  if end_ < start ∨ start < 0 ∨ end_ > (b.contentsLen : Int) then .error .invalidEditPos
  else .ok { b with q := b.q ++ [⟨start.toNat, end_.toNat, []⟩] }

/-- `Replace` replaces `old[start:end]` with `new`.  Same validation as
`Delete`. -/
def Buffer.Replace (b : Buffer) (start end_ : Int) (new : ByteSeq) : Except GoPanic Buffer :=
  if end_ < start ∨ start < 0 ∨ end_ > (b.contentsLen : Int) then .error .invalidEditPos
  else .ok { b with q := b.q ++ [⟨start.toNat, end_.toNat, new⟩] }

/-- An `io.Writer`: given a sink state and a byte payload it returns the new
state, the reported count `n`, and `some err` on failure.  `io.WriteString`
delivers the same bytes through the same sink, so a single write function
covers both `write` and `writeStr` of the source. -/
def WriteFn (σ ε : Type) := σ → ByteSeq → σ × Nat × Option ε

/-- One step of the overlap handling at the top of the loop body of
`WriteTo`: decide whether to panic, skip the record (`continue`), or
proceed with the given effective start. -/
inductive StepAct where
  | panic (p : GoPanic)
  | skip
  | go (start : Nat)

/-- The `if start < offset { ... }` block of `WriteTo`: `e` is the current
record, `prev` the record at index `i-1` of the sorted queue (`none` at
`i = 0`, where `b.q[i-1]` would panic — unreachable since `offset` starts
at `0`), `offset` the running cursor. -/
def resolveStart (e : edit) (prev : Option edit) (offset : Nat) : StepAct :=
  if e.start < offset then
    match prev with
    | none => .panic .indexBounds
    | some e0 =>
      if e.new ≠ [] ∨ e0.new ≠ [] then .panic (.overlappingEdits e0 e)
      else if e.end_ < e0.end_ then .skip
      else .go offset
  else .go e.start

/-- The loop of `WriteTo` over the sorted queue, followed by the final
`write(content[offset:])`.  The returned `Nat` is the total of the counts
reported by the sink for the writes performed from this point on (the Go
source accumulates the same sum in the closure variable `total`); a sink
error aborts the remaining pass and is returned with that total. -/
def writeToLoop (content : ByteSeq) {σ ε : Type} (w : WriteFn σ ε) :
    List edit → Option edit → Nat → σ → Except GoPanic (σ × Nat × Option ε)
  | [], _, offset, s =>
      if offset ≤ content.length then .ok (w s (content.drop offset))
      else .error .sliceBounds
  | e :: rest, prev, offset, s =>
      match resolveStart e prev offset with
      | .panic p => .error p
      | .skip => writeToLoop content w rest (some e) offset s
      | .go start =>
        if start ≤ content.length then
          match w s (goSlice content offset start) with
          | (s1, n1, some err) => .ok (s1, n1, some err)
          | (s1, n1, none) =>
            match w s1 e.new with
            | (s2, n2, some err) => .ok (s2, n1 + n2, some err)
            | (s2, n2, none) =>
              match writeToLoop content w rest (some e) e.end_ s2 with
              | .ok (s3, n3, er) => .ok (s3, n1 + n2 + n3, er)
              | .error p => .error p
        else .error .sliceBounds

/-- `WriteTo` writes the data with queued edits applied to `w`.  The source
picks `b.old` (when non-nil) or `b.str` at every write; the choice is
constant across the pass, so it is hoisted out of the loop here. -/
def Buffer.WriteTo (b : Buffer) {σ ε : Type} (w : WriteFn σ ε) (s : σ) :
    Except GoPanic (σ × Nat × Option ε) :=
  match b.old with
  | some o => writeToLoop o w (sortEdits b.q) none 0 s
  | none => writeToLoop b.str w (sortEdits b.q) none 0 s

/-- `sort.Stable(b.q)` mutates the queue in place: the buffer state after a
call to `WriteTo` (any sink). -/
def Buffer.afterWriteTo (b : Buffer) : Buffer := { b with q := sortEdits b.q }

/-- A `bytes.Buffer` / `strings.Builder` sink: appends the payload, reports
its full length, never fails. -/
def appendW : WriteFn ByteSeq Empty := fun s p => (s ++ p, p.length, none)

/-- `ByteSeq` returns a new byte slice containing the original data with the
queued edits applied (via `WriteTo` into a `bytes.Buffer`, whose writes
never fail; a panic in `WriteTo` propagates). -/
def Buffer.Bytes (b : Buffer) : Except GoPanic ByteSeq :=
  (b.WriteTo appendW []).map (fun r => r.1)

/-- `String` returns the original data with the queued edits applied, as a
string (via `WriteTo` into a `strings.Builder`; byte-identical to
`Buffer.Bytes`). -/
def Buffer.String (b : Buffer) : Except GoPanic ByteSeq :=
  (b.WriteTo appendW []).map (fun r => r.1)

/-- The content `WriteTo` reads from: `old` when non-nil, else `str`
(a statement-level helper, not a source function). -/
def Buffer.contents (b : Buffer) : ByteSeq :=
  match b.old with
  | some o => o
  | none => b.str

/-- Two ranges overlap when each starts strictly before the other ends. -/
def overlaps (a b : edit) : Prop := a.start < b.end_ ∧ b.start < a.end_

instance : DecidableRel overlaps := fun a b => inferInstanceAs (Decidable (_ ∧ _))

/-- A record is valid for content of length `len` when
`0 ≤ start ≤ end ≤ len` (the lower bound is free over `Nat`). -/
def edit.valid (len : Nat) (e : edit) : Prop := e.start ≤ e.end_ ∧ e.end_ ≤ len

instance (len : Nat) : DecidablePred (edit.valid len) :=
  fun _ => inferInstanceAs (Decidable (_ ∧ _))

/-- Modelled from the spec: the result of applying a list of edit records in
the order given, each `[start, end)` span replaced by its record's
replacement text and the content between `cursor` and the next edited span
(and after the last one) preserved verbatim. -/
def specReplace (content : ByteSeq) (cursor : Nat) : List edit → ByteSeq
  | [] => content.drop cursor
  | e :: rest => goSlice content cursor e.start ++ e.new ++ specReplace content e.end_ rest

/-- The records form a left-to-right chain from `offset`: each record starts
no earlier than the previous record ended. -/
def chainOK (offset : Nat) : List edit → Prop
  | [] => True
  | e :: rest => offset ≤ e.start ∧ chainOK e.end_ rest

/-- One public mutating call on a buffer. -/
inductive EditCall where
  | insert (pos : Int) (new : ByteSeq)
  | delete (start end_ : Int)
  | replace (start end_ : Int) (new : ByteSeq)

/-- Dispatch one call. -/
def applyCall (b : Buffer) : EditCall → Except GoPanic Buffer
  | .insert p n => b.Insert p n
  | .delete s e => b.Delete s e
  | .replace s e n => b.Replace s e n

/-- Apply a sequence of calls in order (a panic aborts the rest). -/
def applyCalls (b : Buffer) : List EditCall → Except GoPanic Buffer
  | [] => .ok b
  | c :: cs => applyCall b c >>= (applyCalls · cs)

/-- A sink that records every payload it is asked to write, never failing. -/
def logW : WriteFn (List ByteSeq) Empty := fun s p => (s ++ [p], p.length, none)

/-- The sequence of payloads `WriteTo` hands to its sink, in order. -/
def plan (b : Buffer) : Except GoPanic (List ByteSeq) :=
  (b.WriteTo logW []).map (fun r => r.1)

/-- Feed payloads to a sink one at a time, aborting at the first write that
reports an error; returns the final state, the sum of the reported counts
of the attempted writes, and the error of the failing write (if any). -/
def feed {σ ε : Type} (w : WriteFn σ ε) : σ → List ByteSeq → σ × Nat × Option ε
  | s, [] => (s, 0, none)
  | s, c :: cs =>
      match w s c with
      | (s1, n1, some err) => (s1, n1, some err)
      | (s1, n1, none) =>
          let r := feed w s1 cs
          (r.1, n1 + r.2.1, r.2.2)

/-! ## Basic facts about the sort -/

/-- `sortRel` is the lexicographic (non-strict) order on `(start, end_)`. -/
theorem sortRel_iff (a b : edit) :
    sortRel a b ↔ a.start < b.start ∨ (a.start = b.start ∧ a.end_ ≤ b.end_) := by
  unfold sortRel edits.Less
  by_cases h : b.start = a.start <;> simp [h] <;> omega

instance : IsTotal edit sortRel where
  total a b := by rw [sortRel_iff, sortRel_iff]; omega

instance : IsTrans edit sortRel where
  trans a b c hab hbc := by
    rw [sortRel_iff] at hab hbc ⊢
    omega

theorem sortEdits_sorted (q : List edit) : List.Sorted sortRel (sortEdits q) :=
  List.sorted_insertionSort sortRel q

theorem sortEdits_perm (q : List edit) : (sortEdits q).Perm q :=
  List.perm_insertionSort sortRel q

theorem sortEdits_idem (q : List edit) : sortEdits (sortEdits q) = sortEdits q :=
  (sortEdits_sorted q).insertionSort_eq

theorem sortEdits_pair (x y : edit) :
    sortEdits [x, y] = if sortRel x y then [x, y] else [y, x] := by
  simp [sortEdits, List.insertionSort, List.orderedInsert]

/-! ## Reduction lemmas for the API -/

/-- `WriteTo` in terms of the selected content. -/
theorem WriteTo_eq (b : Buffer) {σ ε : Type} (w : WriteFn σ ε) (s : σ) :
    b.WriteTo w s = writeToLoop b.contents w (sortEdits b.q) none 0 s := by
  rcases b with ⟨old, str, q⟩
  cases old <;> rfl

theorem Insert_ok (b : Buffer) (pos : Nat) (new : ByteSeq) (h : pos ≤ b.contentsLen) :
    b.Insert pos new = .ok { b with q := b.q ++ [⟨pos, pos, new⟩] } := by
  unfold Buffer.Insert
  rw [if_neg, Int.toNat_natCast]
  omega

theorem Delete_ok (b : Buffer) (s e : Nat) (h1 : s ≤ e) (h2 : e ≤ b.contentsLen) :
    b.Delete s e = .ok { b with q := b.q ++ [⟨s, e, []⟩] } := by
  unfold Buffer.Delete
  rw [if_neg, Int.toNat_natCast, Int.toNat_natCast]
  omega

theorem Replace_ok (b : Buffer) (s e : Nat) (new : ByteSeq) (h1 : s ≤ e)
    (h2 : e ≤ b.contentsLen) :
    b.Replace s e new = .ok { b with q := b.q ++ [⟨s, e, new⟩] } := by
  unfold Buffer.Replace
  rw [if_neg, Int.toNat_natCast, Int.toNat_natCast]
  omega

/-! ## The non-overlapping pass -/

theorem overlaps_symm {a b : edit} (h : overlaps a b) : overlaps b a :=
  ⟨h.2, h.1⟩

/-- Consecutive sorted, non-overlapping records chain: the earlier one ends
no later than the later one starts (needs only the later record's range to
be well-formed). -/
theorem end_le_start_of {a b : edit} (h1 : sortRel a b) (h2 : ¬ overlaps a b)
    (hb : b.start ≤ b.end_) : a.end_ ≤ b.start := by
  rw [sortRel_iff] at h1
  unfold overlaps at h2
  omega

/-- A sorted, pairwise non-overlapping list of well-formed records forms a
chain from any offset at or before its first start. -/
theorem chainOK_of : ∀ (l : List edit) (offset : Nat),
    List.Sorted sortRel l → l.Pairwise (fun a c => ¬ overlaps a c) →
    (∀ e ∈ l, e.start ≤ e.end_) →
    (∀ e, l.head? = some e → offset ≤ e.start) →
    chainOK offset l
  | [], _, _, _, _, _ => trivial
  | e :: rest, offset, hs, hp, hv, hh => by
    refine ⟨hh e rfl, chainOK_of rest e.end_ hs.of_cons hp.of_cons
      (fun x hx => hv x (List.mem_cons_of_mem _ hx)) ?_⟩
    intro r hr
    cases rest with
    | nil => simp at hr
    | cons r0 rest' =>
      simp only [List.head?_cons, Option.some.injEq] at hr
      subst hr
      exact end_le_start_of (List.rel_of_sorted_cons hs r0 (List.mem_cons_self r0 rest'))
        ((List.pairwise_cons.mp hp).1 r0 (List.mem_cons_self r0 rest'))
        (hv r0 (List.mem_cons_of_mem _ (List.mem_cons_self r0 rest')))

/-- On a chained record list (each record starting at or after the running
cursor) the loop with the appending sink appends exactly `specReplace` and
reports its length. -/
theorem writeToLoop_chain (content : ByteSeq) :
    ∀ (l : List edit) (prev : Option edit) (offset : Nat) (s : ByteSeq),
      (∀ e ∈ l, e.valid content.length) → chainOK offset l →
      offset ≤ content.length →
      writeToLoop content appendW l prev offset s
        = .ok (s ++ specReplace content offset l,
               (specReplace content offset l).length, none)
  | [], _, offset, s, _, _, hoff => by
      simp [writeToLoop, appendW, specReplace, if_pos hoff]
  | e :: rest, prev, offset, s, hv, hc, _ => by
      obtain ⟨h1, hrest⟩ := hc
      have hve := hv e (List.mem_cons_self e rest)
      have hstart : ¬ (e.start < offset) := by omega
      have hbound : e.start ≤ content.length := le_trans hve.1 hve.2
      have ih := writeToLoop_chain content rest (some e) e.end_
        (s ++ goSlice content offset e.start ++ e.new)
        (fun x hx => hv x (List.mem_cons_of_mem _ hx)) hrest hve.2
      simp only [writeToLoop, resolveStart, if_neg hstart, if_pos hbound, appendW, ih,
        specReplace]
      simp [List.append_assoc, Nat.add_assoc]

/-- C1: For every set of edit records whose ranges are pairwise
non-overlapping and valid for the content, materialization
(`Bytes`/`String`/`WriteTo`) succeeds and outputs exactly the original
content with each `[start, end)` span replaced by its record's replacement
text (`specReplace` applied to the sorted queue), the records being emitted
as a permutation of the queue in ascending start order, and every byte
outside the edited ranges preserved verbatim. -/
theorem materialize_nonoverlapping (b : Buffer)
    (hv : ∀ e ∈ b.q, e.valid b.contents.length)
    (hno : b.q.Pairwise (fun a c => ¬ overlaps a c)) :
    b.String = .ok (specReplace b.contents 0 (sortEdits b.q))
  ∧ b.Bytes = .ok (specReplace b.contents 0 (sortEdits b.q))
  ∧ b.WriteTo appendW []
      = .ok (specReplace b.contents 0 (sortEdits b.q),
             (specReplace b.contents 0 (sortEdits b.q)).length, none)
  ∧ (sortEdits b.q).Perm b.q
  ∧ List.Sorted (fun a c : edit => a.start ≤ c.start) (sortEdits b.q) := by
  have hperm := sortEdits_perm b.q
  have hsorted := sortEdits_sorted b.q
  have hv' : ∀ e ∈ sortEdits b.q, e.valid b.contents.length :=
    fun e he => hv e (hperm.mem_iff.mp he)
  have hno' : (sortEdits b.q).Pairwise (fun a c => ¬ overlaps a c) :=
    (hperm.pairwise_iff (fun h hov => h (overlaps_symm hov))).mpr hno
  have hchain : chainOK 0 (sortEdits b.q) :=
    chainOK_of _ 0 hsorted hno' (fun e he => (hv' e he).1) (fun _ _ => Nat.zero_le _)
  have hloop := writeToLoop_chain b.contents (sortEdits b.q) none 0 [] hv' hchain
    (Nat.zero_le _)
  refine ⟨?_, ?_, ?_, hperm, ?_⟩
  · simp [Buffer.String, WriteTo_eq, hloop, Except.map]
  · simp [Buffer.Bytes, WriteTo_eq, hloop, Except.map]
  · rw [WriteTo_eq]
    simpa using hloop
  · exact hsorted.imp (fun h => by rw [sortRel_iff] at h; omega)

/-- Witness for C1 at a concrete buffer: two valid, non-overlapping records
(appended out of order) materialize to the substituted content. -/
theorem materialize_nonoverlapping_witness :
    (∀ e ∈ (⟨some [1,2,3], [], [⟨1,2,[9]⟩, ⟨0,1,[7]⟩]⟩ : Buffer).q,
        e.valid (⟨some [1,2,3], [], [⟨1,2,[9]⟩, ⟨0,1,[7]⟩]⟩ : Buffer).contents.length)
  ∧ (⟨some [1,2,3], [], [⟨1,2,[9]⟩, ⟨0,1,[7]⟩]⟩ : Buffer).String
      = .ok (specReplace [1,2,3] 0 (sortEdits [⟨1,2,[9]⟩, ⟨0,1,[7]⟩]))
  ∧ specReplace [1,2,3] 0 (sortEdits [⟨1,2,[9]⟩, ⟨0,1,[7]⟩]) = [7,9,3] :=
  ⟨by decide,
   (materialize_nonoverlapping _ (by decide) (by decide)).1,
   by decide⟩

/-! ## Idempotence (C8) -/

/-- C8: materializing twice without intervening appends yields identical
buffer output and byte counts: `WriteTo`'s only side effect on the buffer
is the in-place stable sort (a permutation of the queue that adds, removes
and alters nothing), and re-sorting a sorted queue is the identity, so a
second materialization from the post-sort state agrees with the first for
every sink. -/
theorem materialize_idempotent (b : Buffer) :
    (∀ (σ ε : Type) (w : WriteFn σ ε) (s : σ),
        b.afterWriteTo.WriteTo w s = b.WriteTo w s)
  ∧ b.afterWriteTo.String = b.String
  ∧ b.afterWriteTo.Bytes = b.Bytes
  ∧ b.afterWriteTo.afterWriteTo = b.afterWriteTo
  ∧ b.afterWriteTo.q.Perm b.q
  ∧ b.afterWriteTo.old = b.old ∧ b.afterWriteTo.str = b.str := by
  have hW : ∀ (σ ε : Type) (w : WriteFn σ ε) (s : σ),
      b.afterWriteTo.WriteTo w s = b.WriteTo w s := by
    intro σ ε w s
    rw [WriteTo_eq, WriteTo_eq]
    simp [Buffer.afterWriteTo, Buffer.contents, sortEdits_idem]
  refine ⟨hW, ?_, ?_, ?_, sortEdits_perm b.q, rfl, rfl⟩
  · simp [Buffer.String, hW]
  · simp [Buffer.Bytes, hW]
  · simp [Buffer.afterWriteTo, sortEdits_idem]

/-! ## The merge slip (C2, C3) -/

/-- C3 fails on the code: the three valid pure deletions `[0,10)`, `[1,2)`,
`[2,5)` on "0123456789" have union `[0,10)`, so the claimed output is
empty, but materialization returns "56789": processing `[2,5)` after the
skipped `[1,2)` compares its end against the skipped record's end rather
than the running cursor and then moves the cursor backwards from 10 to 5,
resurrecting bytes that the first deletion had consumed. -/
theorem overlapping_deletes_failing :
    ((NewBuffer (some [48,49,50,51,52,53,54,55,56,57])).Delete 0 10
        >>= (·.Delete 1 2) >>= (·.Delete 2 5) >>= Buffer.String)
      = .ok [53,54,55,56,57]
  ∧ ([53,54,55,56,57] : ByteSeq) ≠ [] :=
  ⟨rfl, by decide⟩

/-- C2 fails on the code: `Replace(5,8,"X")` overlaps the pure deletion
`Delete(0,10)` and carries non-empty replacement text, yet with the pure
deletions `[1,2)` and `[2,5)` also queued, materialization does not raise
the illegal-overlap panic — it succeeds with output "X89" (the backward
cursor move of C3's slip hides the overlap from the `start < offset`
test). -/
theorem overlap_panic_failing :
    ((NewBuffer (some [48,49,50,51,52,53,54,55,56,57])).Delete 0 10
        >>= (·.Delete 1 2) >>= (·.Delete 2 5) >>= (·.Replace 5 8 [88])
        >>= Buffer.String)
      = .ok [88,56,57]
  ∧ overlaps ⟨0,10,[]⟩ ⟨5,8,[88]⟩
  ∧ (⟨5,8,[88]⟩ : edit).new ≠ [] :=
  ⟨rfl, by decide, by decide⟩

/-! ## Append-time validation (C6) -/

/-- C6: each of `Insert(pos, text)`, `Delete(start, end)` and
`Replace(start, end, text)` fails at call time with the invalid-range panic
exactly when the offsets violate `0 ≤ start ≤ end ≤ contentsLen` (for
`Insert`: `pos < 0` or `pos > contentsLen`); the panic model returns no
buffer, so the edit queue is untouched on failure, and every valid call
succeeds, appending exactly one `{start, end, replacement}` record. -/
theorem append_validation (b : Buffer) (pos start end_ : Int) (new : ByteSeq) :
    (b.Insert pos new = .error .invalidEditPos
      ↔ pos < 0 ∨ (b.contentsLen : Int) < pos)
  ∧ (¬ (pos < 0 ∨ (b.contentsLen : Int) < pos) →
      b.Insert pos new = .ok { b with q := b.q ++ [⟨pos.toNat, pos.toNat, new⟩] })
  ∧ (b.Delete start end_ = .error .invalidEditPos
      ↔ ¬ (0 ≤ start ∧ start ≤ end_ ∧ end_ ≤ (b.contentsLen : Int)))
  ∧ ((0 ≤ start ∧ start ≤ end_ ∧ end_ ≤ (b.contentsLen : Int)) →
      b.Delete start end_ = .ok { b with q := b.q ++ [⟨start.toNat, end_.toNat, []⟩] })
  ∧ (b.Replace start end_ new = .error .invalidEditPos
      ↔ ¬ (0 ≤ start ∧ start ≤ end_ ∧ end_ ≤ (b.contentsLen : Int)))
  ∧ ((0 ≤ start ∧ start ≤ end_ ∧ end_ ≤ (b.contentsLen : Int)) →
      b.Replace start end_ new
        = .ok { b with q := b.q ++ [⟨start.toNat, end_.toNat, new⟩] }) := by
  unfold Buffer.Insert Buffer.Delete Buffer.Replace
  refine ⟨?_, ?_, ?_, ?_, ?_, ?_⟩
  · split_ifs with hc <;> simp <;> omega
  · intro h
    rw [if_neg (by omega)]
  · split_ifs with hc <;> simp <;> omega
  · intro h
    rw [if_neg (by omega)]
  · split_ifs with hc <;> simp <;> omega
  · intro h
    rw [if_neg (by omega)]

/-- Witness for C6: the three calls at concrete in-range offsets each
append exactly one record. -/
theorem append_validation_witness :
    (NewBufferString [7,8]).Insert 1 [9] = .ok ⟨none, [7,8], [⟨1,1,[9]⟩]⟩
  ∧ (NewBufferString [7,8]).Delete 0 2 = .ok ⟨none, [7,8], [⟨0,2,[]⟩]⟩
  ∧ (NewBufferString [7,8]).Replace 1 2 [9] = .ok ⟨none, [7,8], [⟨1,2,[9]⟩]⟩ :=
  ⟨(append_validation (NewBufferString [7,8]) 1 0 2 [9]).2.1 (by decide),
   (append_validation (NewBufferString [7,8]) 1 0 2 [9]).2.2.2.1 (by decide),
   (append_validation (NewBufferString [7,8]) 1 1 2 [9]).2.2.2.2.2 (by decide)⟩

/-! ## Tie-break (C5) -/

theorem ok_bind {α β : Type} (a : α) (f : α → Except GoPanic β) :
    (Except.ok a >>= f) = f a := rfl

/-- C5: for `p < q ≤ len`, an `Insert(p, s)` and a `Replace(p, q, t)` on the
same buffer materialize with the inserted text immediately before the
replacement text, in both append orders: the stable sort orders records by
(start ascending, end ascending) and the zero-width record sorts before the
wider one. -/
theorem insert_before_replace (content s t : ByteSeq) (p q : Nat)
    (hpq : p < q) (hq : q ≤ content.length) :
    ((NewBufferString content).Insert p s >>= (·.Replace p q t) >>= Buffer.String)
      = .ok (content.take p ++ s ++ t ++ content.drop q)
  ∧ ((NewBufferString content).Replace p q t >>= (·.Insert p s) >>= Buffer.String)
      = .ok (content.take p ++ s ++ t ++ content.drop q) := by
  have h1 := Insert_ok (NewBufferString content) p s
    (show p ≤ content.length by omega)
  have h2 := Replace_ok (⟨none, content, [⟨p, p, s⟩]⟩ : Buffer) p q t (by omega)
    (show q ≤ content.length from hq)
  have h1' := Replace_ok (NewBufferString content) p q t (by omega)
    (show q ≤ content.length from hq)
  have h2' := Insert_ok (⟨none, content, [⟨p, q, t⟩]⟩ : Buffer) p s
    (show p ≤ content.length by omega)
  simp only [NewBufferString, List.nil_append, List.singleton_append] at h1 h1' h2 h2'
  have hq1 : sortEdits [⟨p, p, s⟩, ⟨p, q, t⟩] = [⟨p, p, s⟩, ⟨p, q, t⟩] := by
    rw [sortEdits_pair, if_pos]
    rw [sortRel_iff]
    right
    exact ⟨rfl, show p ≤ q by omega⟩
  have hq2 : sortEdits [⟨p, q, t⟩, ⟨p, p, s⟩] = [⟨p, p, s⟩, ⟨p, q, t⟩] := by
    rw [sortEdits_pair, if_neg]
    rw [sortRel_iff]
    dsimp only
    omega
  have hval : ∀ e ∈ [(⟨p, p, s⟩ : edit), ⟨p, q, t⟩], e.valid content.length := by
    intro e he
    simp only [List.mem_cons, List.mem_singleton, List.not_mem_nil, or_false] at he
    rcases he with rfl | rfl
    · exact ⟨le_refl p, show p ≤ content.length by omega⟩
    · exact ⟨show p ≤ q by omega, hq⟩
  have hchain : chainOK 0 [(⟨p, p, s⟩ : edit), ⟨p, q, t⟩] :=
    ⟨Nat.zero_le _, le_refl p, trivial⟩
  have hloop := writeToLoop_chain content [⟨p, p, s⟩, ⟨p, q, t⟩] none 0 [] hval hchain
    (Nat.zero_le _)
  have hspec : specReplace content 0 [(⟨p, p, s⟩ : edit), ⟨p, q, t⟩]
      = content.take p ++ s ++ t ++ content.drop q := by
    simp [specReplace, goSlice, List.drop_take]
  constructor
  · rw [show (NewBufferString content) = (⟨none, content, []⟩ : Buffer) from rfl]
    rw [h1, ok_bind, h2, ok_bind]
    simp only [Buffer.String, WriteTo_eq, Buffer.contents]
    rw [hq1, hloop]
    simp [Except.map, hspec]
  · rw [show (NewBufferString content) = (⟨none, content, []⟩ : Buffer) from rfl]
    rw [h1', ok_bind, h2', ok_bind]
    simp only [Buffer.String, WriteTo_eq, Buffer.contents]
    rw [hq2, hloop]
    simp [Except.map, hspec]

/-- Witness for C5 at `p = 1`, `q = 2` on content `[5,6,7]`. -/
theorem insert_before_replace_witness :
    ((NewBufferString [5,6,7]).Insert 1 [8] >>= (·.Replace 1 2 [9]) >>= Buffer.String)
      = .ok [5, 8, 9, 7]
  ∧ ((NewBufferString [5,6,7]).Replace 1 2 [9] >>= (·.Insert 1 [8]) >>= Buffer.String)
      = .ok [5, 8, 9, 7] :=
  insert_before_replace [5,6,7] [8] [9] 1 2 (by decide) (by decide)

/-! ## Overlapping deletions (C4) -/

/-- A sorted overlapping pair of pure deletions merges to the single span
from the first record's start to the larger end. -/
theorem writeToLoop_delete_pair (content : ByteSeq) (u v : edit)
    (hun : u.new = []) (hvn : v.new = [])
    (hov : overlaps u v)
    (huv : u.start ≤ u.end_) (hue : u.end_ ≤ content.length)
    (hvv : v.start ≤ v.end_) (hve : v.end_ ≤ content.length) :
    writeToLoop content appendW [u, v] none 0 []
      = .ok (content.take u.start ++ content.drop (max u.end_ v.end_),
             (content.take u.start ++ content.drop (max u.end_ v.end_)).length,
             none) := by
  have hband : u.start ≤ content.length := le_trans huv hue
  have hvs : v.start < u.end_ := hov.2
  by_cases hce : v.end_ < u.end_
  · have hmax : max u.end_ v.end_ = u.end_ := by omega
    simp [writeToLoop, resolveStart, hband, appendW, hun, hvn, hvs, hce, hmax, hue,
      goSlice, List.drop_take]
  · have hmax : max u.end_ v.end_ = v.end_ := by omega
    simp [writeToLoop, resolveStart, hband, appendW, hun, hvn, hvs, hce, hmax, hue, hve,
      goSlice, List.drop_take]

/-- C4: for two pure-deletion records `[a,b)` and `[c,d)` and no other
records: if the ranges overlap (`a < d` and `c < b`) materialization
removes exactly the single span `[min(a,c), max(b,d))`, with no duplicated
and no missing bytes; if they merely abut (`b = c`) both deletions are
applied independently (nothing is merged), which removes `[a,b)` and
`[b,d)` separately, leaving `take a ++ drop d`. -/
theorem delete_pair (content : ByteSeq) (a b c d : Nat)
    (hab : a ≤ b) (hb : b ≤ content.length) (hcd : c ≤ d) (hd : d ≤ content.length) :
    ((a < d ∧ c < b) →
      ((NewBufferString content).Delete a b >>= (·.Delete c d) >>= Buffer.String)
        = .ok (content.take (min a c) ++ content.drop (max b d)))
  ∧ (b = c →
      ((NewBufferString content).Delete a b >>= (·.Delete c d) >>= Buffer.String)
        = .ok (content.take a ++ content.drop d)) := by
  have hD1 := Delete_ok (NewBufferString content) a b hab
    (show b ≤ content.length from hb)
  have hD2 := Delete_ok (⟨none, content, [⟨a, b, []⟩]⟩ : Buffer) c d hcd
    (show d ≤ content.length from hd)
  simp only [NewBufferString, List.nil_append, List.singleton_append] at hD1 hD2
  constructor
  · rintro ⟨had, hcb⟩
    rw [show (NewBufferString content) = (⟨none, content, []⟩ : Buffer) from rfl]
    rw [hD1, ok_bind, hD2, ok_bind]
    simp only [Buffer.String, WriteTo_eq, Buffer.contents]
    by_cases hsr : sortRel ⟨a, b, ([] : ByteSeq)⟩ ⟨c, d, []⟩
    · have hmin : min a c = a := by
        rw [sortRel_iff] at hsr
        dsimp only at hsr
        omega
      have hpair := writeToLoop_delete_pair content ⟨a, b, []⟩ ⟨c, d, []⟩ rfl rfl
        ⟨had, hcb⟩ hab hb hcd hd
      rw [sortEdits_pair, if_pos hsr, hpair]
      simp [Except.map, hmin]
    · have hmin : min a c = c := by
        have : ¬ (a < c ∨ (a = c ∧ b ≤ d)) := fun h => hsr ((sortRel_iff _ _).mpr h)
        omega
      have hpair := writeToLoop_delete_pair content ⟨c, d, []⟩ ⟨a, b, []⟩ rfl rfl
        ⟨hcb, had⟩ hcd hd hab hb
      rw [sortEdits_pair, if_neg hsr, hpair]
      simp [Except.map, hmin, Nat.max_comm]
  · intro hbc
    subst hbc
    have hsr : sortRel ⟨a, b, ([] : ByteSeq)⟩ ⟨b, d, []⟩ := by
      rw [sortRel_iff]
      dsimp only
      omega
    have hval : ∀ e ∈ [(⟨a, b, ([] : ByteSeq)⟩ : edit), ⟨b, d, []⟩],
        e.valid content.length := by
      intro e he
      simp only [List.mem_cons, List.mem_singleton, List.not_mem_nil, or_false] at he
      rcases he with rfl | rfl
      · exact ⟨hab, hb⟩
      · exact ⟨hcd, hd⟩
    have hloop := writeToLoop_chain content [⟨a, b, []⟩, ⟨b, d, []⟩] none 0 [] hval
      ⟨Nat.zero_le _, le_refl b, trivial⟩ (Nat.zero_le _)
    rw [show (NewBufferString content) = (⟨none, content, []⟩ : Buffer) from rfl]
    rw [hD1, ok_bind, hD2, ok_bind]
    simp only [Buffer.String, WriteTo_eq, Buffer.contents]
    rw [sortEdits_pair, if_pos hsr, hloop]
    simp [Except.map, specReplace, goSlice, List.drop_take]

/-- Witness for C4: overlap `[2,5)∪[3,7)` on "0123456789"-as-bytes removes
`[2,7)`; abutting `[2,4)`,`[4,6)` removes both independently. -/
theorem delete_pair_witness :
    ((NewBufferString [48,49,50,51,52,53,54,55,56,57]).Delete 2 5
        >>= (·.Delete 3 7) >>= Buffer.String)
      = .ok [48, 49, 55, 56, 57]
  ∧ ((NewBufferString [48,49,50,51,52,53,54,55,56,57]).Delete 2 4
        >>= (·.Delete 4 6) >>= Buffer.String)
      = .ok [48, 49, 54, 55, 56, 57] :=
  ⟨((delete_pair [48,49,50,51,52,53,54,55,56,57] 2 5 3 7 (by decide) (by decide)
      (by decide) (by decide)).1 (by decide)).trans (by rfl),
   ((delete_pair [48,49,50,51,52,53,54,55,56,57] 2 4 4 6 (by decide) (by decide)
      (by decide) (by decide)).2 (by decide)).trans (by rfl)⟩

/-! ## Sink failures (C7) -/

/-- The logging sink is a state homomorphism: running it from `s0` prefixes
`s0` to the chunks collected from the empty log. -/
theorem writeToLoop_logW (content : ByteSeq) :
    ∀ (l : List edit) (prev : Option edit) (offset : Nat) (s0 : List ByteSeq),
      writeToLoop content logW l prev offset s0
        = (writeToLoop content logW l prev offset []).map (fun r => (s0 ++ r.1, r.2))
  | [], prev, offset, s0 => by
      by_cases h : offset ≤ content.length
      · simp [writeToLoop, if_pos h, logW, Except.map]
      · simp [writeToLoop, if_neg h, Except.map]
  | e :: rest, prev, offset, s0 => by
      cases hr : resolveStart e prev offset with
      | panic p => simp [writeToLoop, hr, Except.map]
      | skip =>
          simp only [writeToLoop, hr]
          exact writeToLoop_logW content rest (some e) offset s0
      | go start =>
          by_cases h : start ≤ content.length
          · have ih1 := writeToLoop_logW content rest (some e) e.end_
              ((s0 ++ [goSlice content offset start]) ++ [e.new])
            have ih2 := writeToLoop_logW content rest (some e) e.end_
              (([] ++ [goSlice content offset start]) ++ [e.new])
            simp only [writeToLoop, hr, if_pos h, logW]
            rw [ih1, ih2]
            cases writeToLoop content logW rest (some e) e.end_ [] with
            | ok r => simp [Except.map, List.append_assoc]
            | error p => simp [Except.map]
          · simp [writeToLoop, hr, if_neg h, Except.map]

/-- The pass is writer-independent: any sink sees exactly the planned chunk
sequence, fed one write at a time until the first failure. -/
theorem writeToLoop_sim (content : ByteSeq) {σ ε : Type} (w : WriteFn σ ε) :
    ∀ (l : List edit) (prev : Option edit) (offset : Nat) (chunks : List ByteSeq)
      (n : Nat) (er : Option Empty),
      writeToLoop content logW l prev offset [] = .ok (chunks, n, er) →
      ∀ s, writeToLoop content w l prev offset s = .ok (feed w s chunks)
  | [], prev, offset, chunks, n, er, h, s => by
      by_cases hb : offset ≤ content.length
      · simp only [writeToLoop, if_pos hb, logW, List.nil_append,
          Except.ok.injEq, Prod.mk.injEq] at h ⊢
        obtain ⟨rfl, rfl, rfl⟩ := h
        rcases hw : w s (content.drop offset) with ⟨s1, n1, oe⟩
        cases oe <;> simp [feed, hw]
      · simp [writeToLoop, if_neg hb] at h
  | e :: rest, prev, offset, chunks, n, er, h, s => by
      cases hr : resolveStart e prev offset with
      | panic p => simp [writeToLoop, hr] at h
      | skip =>
          simp only [writeToLoop, hr] at h ⊢
          exact writeToLoop_sim content w rest (some e) offset chunks n er h s
      | go start =>
          by_cases hb : start ≤ content.length
          · simp only [writeToLoop, hr, if_pos hb, logW, List.nil_append] at h ⊢
            rw [writeToLoop_logW content rest (some e) e.end_
              ([goSlice content offset start] ++ [e.new])] at h
            cases hbase : writeToLoop content logW rest (some e) e.end_ [] with
            | error p =>
                rw [hbase] at h
                simp [Except.map] at h
            | ok r =>
                obtain ⟨cs, n3, er3⟩ := r
                rw [hbase] at h
                simp only [Except.map, List.singleton_append, List.cons_append,
                  List.nil_append, Except.ok.injEq, Prod.mk.injEq] at h
                obtain ⟨rfl, rfl, rfl⟩ := h
                have IH := writeToLoop_sim content w rest (some e) e.end_ cs n3 er3 hbase
                rcases hw1 : w s (goSlice content offset start) with ⟨s1, n1, oe1⟩
                cases oe1 with
                | some e1 => simp [feed, hw1]
                | none =>
                    rcases hw2 : w s1 e.new with ⟨s2, n2, oe2⟩
                    cases oe2 with
                    | some e2 => simp [feed, hw1, hw2]
                    | none =>
                        simp [feed, hw1, hw2, IH s2, Nat.add_assoc]
          · simp [writeToLoop, hr, if_neg hb] at h

/-- C7: if the planned chunk sequence of a buffer is `chunks` (no panic),
then for every sink `WriteTo` performs exactly those writes in order,
aborts the remaining pass at the first failing write, and returns the sum
of the counts reported for the attempted writes together with the failing
write's underlying error (`feed`); with no failure it returns the total of
all reported counts and no error.  The edit records are neither removed
nor altered: the post-call queue is a permutation of the original. -/
theorem writeTo_sink_failure (b : Buffer) {σ ε : Type} (w : WriteFn σ ε) (s : σ)
    (chunks : List ByteSeq) (h : plan b = .ok chunks) :
    b.WriteTo w s = .ok (feed w s chunks) ∧ b.afterWriteTo.q.Perm b.q := by
  refine ⟨?_, sortEdits_perm b.q⟩
  rw [WriteTo_eq]
  unfold plan at h
  rw [WriteTo_eq] at h
  cases hbase : writeToLoop b.contents logW (sortEdits b.q) none 0 [] with
  | error p =>
      rw [hbase] at h
      simp [Except.map] at h
  | ok r =>
      obtain ⟨cs, n, er⟩ := r
      rw [hbase] at h
      simp only [Except.map, Except.ok.injEq] at h
      subst h
      exact writeToLoop_sim b.contents w (sortEdits b.q) none 0 cs n er hbase s

/-- Witness for C7: a sink failing on its second write gets the planned
chunks of a one-deletion buffer and aborts with the partial count. -/
theorem writeTo_sink_failure_witness :
    plan ⟨some [10,20,30], [], [⟨1, 2, []⟩]⟩ = .ok [[10], [], [30]]
  ∧ (⟨some [10,20,30], [], [⟨1, 2, []⟩]⟩ : Buffer).WriteTo
      (fun s p => (s + 1, p.length, if s = 1 then some () else none)) 0
      = .ok (feed (fun s p => (s + 1, p.length, if s = 1 then some () else none)) 0
          [[10], [], [30]]) :=
  ⟨rfl,
   (writeTo_sink_failure ⟨some [10,20,30], [], [⟨1, 2, []⟩]⟩
      (fun s p => (s + 1, p.length, if s = 1 then some () else none)) 0
      [[10], [], [30]] rfl).1⟩

/-! ## The two content variants (C9) -/

theorem applyCall_fields (b : Buffer) (c : EditCall) (b1 : Buffer)
    (h : applyCall b c = .ok b1) : b1.old = b.old ∧ b1.str = b.str := by
  cases c with
  | insert p n =>
      simp only [applyCall, Buffer.Insert] at h
      split_ifs at h
      injection h with h2
      subst h2
      exact ⟨rfl, rfl⟩
  | delete s e =>
      simp only [applyCall, Buffer.Delete] at h
      split_ifs at h
      injection h with h2
      subst h2
      exact ⟨rfl, rfl⟩
  | replace s e n =>
      simp only [applyCall, Buffer.Replace] at h
      split_ifs at h
      injection h with h2
      subst h2
      exact ⟨rfl, rfl⟩

theorem applyCalls_fields : ∀ (cs : List EditCall) (b b' : Buffer),
    applyCalls b cs = .ok b' → b'.old = b.old ∧ b'.str = b.str
  | [], b, b', h => by
      simp only [applyCalls, Except.ok.injEq] at h
      subst h
      exact ⟨rfl, rfl⟩
  | c :: cs, b, b', h => by
      simp only [applyCalls] at h
      cases hc : applyCall b c with
      | error p => rw [hc] at h; exact Except.noConfusion h
      | ok b1 =>
          rw [hc, ok_bind] at h
          have h1 := applyCalls_fields cs b1 b' h
          have h2 := applyCall_fields b c b1 hc
          exact ⟨h1.1.trans h2.1, h1.2.trans h2.2⟩

/-- The byte-slice buffer and the string buffer evolve in lockstep: same
accept/reject decisions, same appended records. -/
theorem applyCalls_rel (content str0 : ByteSeq) :
    ∀ (cs : List EditCall) (q : List edit),
      applyCalls ⟨some content, str0, q⟩ cs
        = (applyCalls ⟨none, content, q⟩ cs).map
            (fun b' => ⟨some content, str0, b'.q⟩)
  | [], q => by simp [applyCalls, Except.map]
  | c :: cs, q => by
      cases c with
      | insert p n =>
          simp only [applyCalls, applyCall, Buffer.Insert, Buffer.contentsLen]
          by_cases hc : p < 0 ∨ p > (content.length : Int)
          · rw [if_pos hc, if_pos hc]
            rfl
          · rw [if_neg hc, if_neg hc, ok_bind, ok_bind]
            exact applyCalls_rel content str0 cs (q ++ [⟨p.toNat, p.toNat, n⟩])
      | delete s e =>
          simp only [applyCalls, applyCall, Buffer.Delete, Buffer.contentsLen]
          by_cases hc : e < s ∨ s < 0 ∨ e > (content.length : Int)
          · rw [if_pos hc, if_pos hc]
            rfl
          · rw [if_neg hc, if_neg hc, ok_bind, ok_bind]
            exact applyCalls_rel content str0 cs (q ++ [⟨s.toNat, e.toNat, []⟩])
      | replace s e n =>
          simp only [applyCalls, applyCall, Buffer.Replace, Buffer.contentsLen]
          by_cases hc : e < s ∨ s < 0 ∨ e > (content.length : Int)
          · rw [if_pos hc, if_pos hc]
            rfl
          · rw [if_neg hc, if_neg hc, ok_bind, ok_bind]
            exact applyCalls_rel content str0 cs (q ++ [⟨s.toNat, e.toNat, n⟩])

/-- C9: for every initial string (byte sequence) and every sequence of
Insert/Delete/Replace calls, `NewBuffer([]byte(s))` and
`NewBufferString(s)` accept and reject exactly the same calls with equal
resulting queues, and materialization (`String`/`Bytes`/`WriteTo` into any
sink) gives identical output, byte counts and errors. -/
theorem variant_equiv (content : ByteSeq) (cs : List EditCall) :
    ((applyCalls (NewBuffer (some content)) cs).map Buffer.q
      = (applyCalls (NewBufferString content) cs).map Buffer.q)
  ∧ ((applyCalls (NewBuffer (some content)) cs >>= Buffer.String)
      = (applyCalls (NewBufferString content) cs >>= Buffer.String))
  ∧ ((applyCalls (NewBuffer (some content)) cs >>= Buffer.Bytes)
      = (applyCalls (NewBufferString content) cs >>= Buffer.Bytes))
  ∧ (∀ (σ ε : Type) (w : WriteFn σ ε) (s : σ),
      (applyCalls (NewBuffer (some content)) cs >>= (·.WriteTo w s))
      = (applyCalls (NewBufferString content) cs >>= (·.WriteTo w s))) := by
  have hWT : ∀ (q : List edit) (σ ε : Type) (w : WriteFn σ ε) (s : σ),
      (⟨some content, [], q⟩ : Buffer).WriteTo w s
        = (⟨none, content, q⟩ : Buffer).WriteTo w s := by
    intro q σ ε w s
    rw [WriteTo_eq, WriteTo_eq]
    rfl
  rw [show NewBuffer (some content) = (⟨some content, [], []⟩ : Buffer) from rfl,
      show NewBufferString content = (⟨none, content, []⟩ : Buffer) from rfl,
      applyCalls_rel content [] cs []]
  cases hA : applyCalls ⟨none, content, []⟩ cs with
  | error p => exact ⟨rfl, rfl, rfl, fun σ ε w s => rfl⟩
  | ok b' =>
      have hshape : b' = ⟨none, content, b'.q⟩ := by
        obtain ⟨h1, h2⟩ := applyCalls_fields cs _ b' hA
        rcases b' with ⟨o, st, qq⟩
        simp only at h1 h2
        rw [h1, h2]
      refine ⟨by simp [Except.map], ?_, ?_, ?_⟩
      · show (⟨some content, [], b'.q⟩ : Buffer).String = b'.String
        rw [hshape]
        simp [Buffer.String, hWT]
      · show (⟨some content, [], b'.q⟩ : Buffer).Bytes = b'.Bytes
        rw [hshape]
        simp [Buffer.Bytes, hWT]
      · intro σ ε w s
        show (⟨some content, [], b'.q⟩ : Buffer).WriteTo w s = b'.WriteTo w s
        rw [hshape]
        exact hWT b'.q σ ε w s

/-! ## The nil buffer (C10) -/

theorem applyCalls_insert0 : ∀ (ns : List ByteSeq) (q : List edit),
    applyCalls ⟨none, [], q⟩ (ns.map (fun n => EditCall.insert 0 n))
      = .ok ⟨none, [], q ++ ns.map (fun n => ⟨0, 0, n⟩)⟩
  | [], q => by simp [applyCalls]
  | n :: ns, q => by
      simp only [List.map, applyCalls, applyCall, Buffer.Insert]
      rw [if_neg (show ¬ ((0 : Int) < 0
            ∨ (0 : Int) > (((⟨none, [], q⟩ : Buffer)).contentsLen : Int))
          by simp [Buffer.contentsLen]), ok_bind]
      refine (applyCalls_insert0 ns (q ++ [⟨(0 : Int).toNat, (0 : Int).toNat, n⟩])).trans ?_
      simp [List.append_assoc, Int.toNat_zero]

theorem sortEdits_insert0 (ns : List ByteSeq) :
    sortEdits (ns.map (fun n => (⟨0, 0, n⟩ : edit))) = ns.map (fun n => ⟨0, 0, n⟩) := by
  apply List.Sorted.insertionSort_eq
  induction ns with
  | nil => exact List.sorted_nil
  | cons n ns ih =>
      refine List.Pairwise.cons ?_ ih
      intro e he
      simp only [List.mem_map] at he
      obtain ⟨m, _, rfl⟩ := he
      rw [sortRel_iff]
      right
      exact ⟨rfl, le_refl 0⟩

theorem writeToLoop_insert0 : ∀ (ns : List ByteSeq) (prev : Option edit) (s : ByteSeq),
    writeToLoop [] appendW (ns.map (fun n => ⟨0, 0, n⟩)) prev 0 s
      = .ok (s ++ ns.flatten, ns.flatten.length, none)
  | [], prev, s => by simp [writeToLoop, appendW]
  | n :: ns, prev, s => by
      have ih := writeToLoop_insert0 ns (some ⟨0, 0, n⟩) (s ++ n)
      simp [writeToLoop, resolveStart, appendW, goSlice, ih, List.append_assoc]

/-- C10: `NewBuffer(nil)` is a working buffer identical to
`NewBufferString("")`: its content length is 0, the only accepted edits are
`Insert(0, _)`, `Delete(0, 0)` and `Replace(0, 0, _)`, materialization
takes the string path (`old` is nil), and the output is exactly the
concatenation of the queued replacement texts in (stably sorted = append)
order. -/
theorem nil_buffer_behavior :
    NewBuffer none = NewBufferString []
  ∧ (NewBuffer none).contentsLen = 0
  ∧ (NewBuffer none).old = none
  ∧ (∀ (pos : Int) (new : ByteSeq),
      (∃ b', (NewBuffer none).Insert pos new = .ok b') ↔ pos = 0)
  ∧ (∀ s e : Int, (∃ b', (NewBuffer none).Delete s e = .ok b') ↔ s = 0 ∧ e = 0)
  ∧ (∀ (s e : Int) (new : ByteSeq),
      (∃ b', (NewBuffer none).Replace s e new = .ok b') ↔ s = 0 ∧ e = 0)
  ∧ (∀ ns : List ByteSeq,
      (applyCalls (NewBuffer none) (ns.map (fun n => EditCall.insert 0 n))
        >>= Buffer.String) = .ok ns.flatten) := by
  refine ⟨rfl, rfl, rfl, ?_, ?_, ?_, ?_⟩
  · intro pos new
    simp only [NewBuffer, Buffer.Insert, Buffer.contentsLen]
    split_ifs with hc
    all_goals simp only [List.length_nil, Nat.cast_zero] at hc
    · constructor
      · intro h
        exact absurd h.choose_spec (by simp)
      · intro h
        exact absurd hc (by omega)
    · constructor
      · intro _
        omega
      · intro _
        exact ⟨_, rfl⟩
  · intro s e
    simp only [NewBuffer, Buffer.Delete, Buffer.contentsLen]
    split_ifs with hc
    all_goals simp only [List.length_nil, Nat.cast_zero] at hc
    · constructor
      · intro h
        exact absurd h.choose_spec (by simp)
      · intro h
        exact absurd hc (by omega)
    · constructor
      · intro _
        omega
      · intro _
        exact ⟨_, rfl⟩
  · intro s e new
    simp only [NewBuffer, Buffer.Replace, Buffer.contentsLen]
    split_ifs with hc
    all_goals simp only [List.length_nil, Nat.cast_zero] at hc
    · constructor
      · intro h
        exact absurd h.choose_spec (by simp)
      · intro h
        exact absurd hc (by omega)
    · constructor
      · intro _
        omega
      · intro _
        exact ⟨_, rfl⟩
  · intro ns
    rw [show NewBuffer none = (⟨none, [], []⟩ : Buffer) from rfl]
    rw [applyCalls_insert0 ns [], ok_bind]
    simp only [Buffer.String, WriteTo_eq, Buffer.contents, List.nil_append]
    rw [sortEdits_insert0, writeToLoop_insert0 ns none []]
    simp [Except.map]
